import Mathlib

/-!
Verification of the quaternionic key-exchange simulator.

The development shallowly embeds the arithmetic core (`mod`, `modInverse`,
quaternion operations) and the three protocol phases of the simulation
component.  JavaScript's `%` on integers is the truncating remainder, embedded
as `Int.tmod`; `Math.floor(a / b)` is floor division, embedded as `Int.fdiv`.
All claims are stated for a positive modulus, which is the only shape the
program ever passes (13, 251 or 1009), so every operation takes the modulus as
a plain `Int` argument and uses the source's "modulus present" branch.
-/

namespace QShield

/-- The source's `mod(n, m) = ((n % m) + m) % m` with JavaScript's truncating
remainder. -/
def mod (n m : Int) : Int := (n.tmod m + m).tmod m

/-- The `while (r !== 0)` loop of the source's `modInverse`, embedded with
explicit fuel.  Each iteration divides `old_r` by `r` with `Math.floor`
(`Int.fdiv`) and rotates the remainder/Bezout-coefficient pairs exactly as the
source does.  The fuel used by `modInverse` strictly exceeds the iteration
count, so the fuel-exhausted branch is unreachable there. -/
def egcdLoop : Nat → Int → Int → Int → Int → Int → Int → Int × Int × Int
  | 0, old_r, _, old_s, _, old_t, _ => (old_r, old_s, old_t)
  | fuel+1, old_r, r, old_s, s, old_t, t =>
    if r = 0 then (old_r, old_s, old_t)
    else
      let quotient := old_r.fdiv r
      egcdLoop fuel r (old_r - quotient * r) s (old_s - quotient * s)
        t (old_t - quotient * t)

/-- The source's `modInverse(a, m)`: run the extended Euclidean loop from
`(old_r, r) = (a, m)`, `(old_s, s) = (1, 0)`, `(old_t, t) = (0, 1)` and return
`mod(old_s, m)`.  For `m > 0` the remainder strictly decreases below `m` after
the first step, so `m.toNat + 1` units of fuel always suffice. -/
def modInverse (a m : Int) : Int :=
  mod (egcdLoop (m.toNat + 1) a m 1 0 0 1).2.1 m

/-- For a positive divisor, the truncating remainder is strictly above `-m`. -/
theorem neg_lt_tmod (n : Int) {m : Int} (hm : 0 < m) : -m < n.tmod m := by
  cases n with
  | ofNat k =>
      have h0 : (0 : Int) ≤ (Int.ofNat k).tmod m :=
        Int.tmod_nonneg m (Int.ofNat_nonneg k)
      omega
  | negSucc k =>
      cases m with
      | ofNat j =>
          have hj : 0 < j := by
            simp only [Int.ofNat_eq_coe] at hm
            exact_mod_cast hm
          have h1 : (k + 1) % j < j := Nat.mod_lt _ hj
          show -(Int.ofNat j) < (Int.negSucc k).tmod (Int.ofNat j)
          have h2 : (Int.negSucc k).tmod (Int.ofNat j) =
              -Int.ofNat ((k + 1) % j) := rfl
          rw [h2]
          simp only [Int.ofNat_eq_coe]
          omega
      | negSucc j => exact absurd hm (by
          have : Int.negSucc j < 0 := Int.negSucc_lt_zero j
          omega)

/-- The source's `mod` agrees with mathematical (Euclidean) reduction for a
positive modulus. -/
theorem mod_eq_emod (n : Int) {m : Int} (hm : 0 < m) : mod n m = n % m := by
  unfold mod
  have h1 : -m < n.tmod m := neg_lt_tmod n hm
  have h3 : 0 ≤ n.tmod m + m := by omega
  rw [Int.tmod_eq_emod h3 (le_of_lt hm), Int.add_emod_self, Int.tmod_def,
    Int.sub_eq_add_neg, ← Int.mul_neg, Int.add_mul_emod_self_left]

theorem mod_nonneg_of_pos (n : Int) {m : Int} (hm : 0 < m) : 0 ≤ mod n m := by
  rw [mod_eq_emod n hm]
  exact Int.emod_nonneg n (by omega)

theorem mod_lt_of_pos (n : Int) {m : Int} (hm : 0 < m) : mod n m < m := by
  rw [mod_eq_emod n hm]
  exact Int.emod_lt_of_pos n hm

/-- Reduction does not change the residue class. -/
theorem mod_modeq (n : Int) {m : Int} (hm : 0 < m) : mod n m ≡ n [ZMOD m] := by
  rw [mod_eq_emod n hm]
  exact Int.emod_emod_of_dvd n dvd_rfl

theorem mod_congr {m x y : Int} (hm : 0 < m) (h : x ≡ y [ZMOD m]) :
    mod x m = mod y m := by
  rw [mod_eq_emod x hm, mod_eq_emod y hm]
  exact h

theorem mod_zero_of_pos {m : Int} (hm : 0 < m) : mod 0 m = 0 := by
  rw [mod_eq_emod 0 hm]
  exact Int.zero_emod m

theorem mod_one_of_one_lt {m : Int} (hm : 1 < m) : mod 1 m = 1 := by
  rw [mod_eq_emod 1 (by omega)]
  exact Int.emod_eq_of_lt (by omega) hm

theorem mod_neg_one_of_one_lt {m : Int} (hm : 1 < m) : mod (-1) m = m - 1 := by
  rw [mod_eq_emod (-1) (by omega)]
  have h1 : (-1 : Int) % m = (-1 + m) % m := (Int.add_emod_self).symm
  rw [h1, Int.emod_eq_of_lt (by omega) (by omega)]
  omega

/-- Invariants of the extended Euclidean loop: given enough fuel, a
non-negative remainder `r` and the Bezout invariants, the loop returns a
positive common divisor of its two starting remainders together with Bezout
coefficients for it (relative to the original inputs `A`, `M`). -/
theorem egcdLoop_spec (A M : Int) :
    ∀ (fuel : Nat) (old_r r old_s s old_t t : Int),
      0 ≤ r → r < (fuel : Int) → (0 < old_r ∨ 0 < r) →
      old_s * A + old_t * M = old_r → s * A + t * M = r →
      0 < (egcdLoop fuel old_r r old_s s old_t t).1 ∧
      (egcdLoop fuel old_r r old_s s old_t t).1 ∣ old_r ∧
      (egcdLoop fuel old_r r old_s s old_t t).1 ∣ r ∧
      (egcdLoop fuel old_r r old_s s old_t t).2.1 * A +
        (egcdLoop fuel old_r r old_s s old_t t).2.2 * M =
        (egcdLoop fuel old_r r old_s s old_t t).1 := by
  intro fuel
  induction fuel with
  | zero =>
      intro old_r r old_s s old_t t hr hrf _ _ _
      exact absurd hrf (by push_cast; omega)
  | succ fuel ih =>
      intro old_r r old_s s old_t t hr hrf hpos hb1 hb2
      by_cases h0 : r = 0
      · subst h0
        simp only [egcdLoop, if_true, eq_self_iff_true]
        refine ⟨by omega, dvd_refl old_r, dvd_zero old_r, hb1⟩
      · have hrpos : 0 < r := lt_of_le_of_ne hr (Ne.symm h0)
        have hq : old_r.fdiv r = old_r / r := Int.fdiv_eq_ediv old_r hr
        have hrem : old_r - old_r.fdiv r * r = old_r % r := by
          rw [hq, Int.emod_def]; ring
        have hrem0 : 0 ≤ old_r - old_r.fdiv r * r := by
          rw [hrem]; exact Int.emod_nonneg old_r h0
        have hremlt : old_r - old_r.fdiv r * r < r := by
          rw [hrem]; exact Int.emod_lt_of_pos old_r hrpos
        have hfuel : old_r - old_r.fdiv r * r < (fuel : Int) := by
          push_cast at hrf ⊢; omega
        have hb1' : s * A + t * M = r := hb2
        have hb2' : (old_s - old_r.fdiv r * s) * A +
            (old_t - old_r.fdiv r * t) * M = old_r - old_r.fdiv r * r := by
          linear_combination hb1 - old_r.fdiv r * hb2
        have step := ih r (old_r - old_r.fdiv r * r) s
          (old_s - old_r.fdiv r * s) t (old_t - old_r.fdiv r * t)
          hrem0 hfuel (Or.inl hrpos) hb1' hb2'
        have hrw : egcdLoop (fuel + 1) old_r r old_s s old_t t =
            egcdLoop fuel r (old_r - old_r.fdiv r * r) s
              (old_s - old_r.fdiv r * s) t (old_t - old_r.fdiv r * t) := by
          simp only [egcdLoop, if_neg h0]
        rw [hrw]
        refine ⟨step.1, ?_, step.2.1, step.2.2.2⟩
        have hd : (egcdLoop fuel r (old_r - old_r.fdiv r * r) s
            (old_s - old_r.fdiv r * s) t (old_t - old_r.fdiv r * t)).1 ∣
            (old_r - old_r.fdiv r * r) + old_r.fdiv r * r :=
          dvd_add step.2.2.1 (Dvd.dvd.mul_left step.2.1 (old_r.fdiv r))
        simpa using hd

/-- Correctness of the source's `modInverse` for a positive modulus coprime
with the argument: the result lies in `[0, m)` and is a modular inverse. -/
theorem modInverse_spec {a m : Int} (hm : 0 < m) (hg : Int.gcd a m = 1) :
    0 ≤ modInverse a m ∧ modInverse a m < m ∧
    a * modInverse a m ≡ 1 [ZMOD m] := by
  have hfuel : m < ((m.toNat + 1 : Nat) : Int) := by
    push_cast; omega
  have spec := egcdLoop_spec a m (m.toNat + 1) a m 1 0 0 1
    (le_of_lt hm) hfuel (Or.inr hm) (by ring) (by ring)
  set res := egcdLoop (m.toNat + 1) a m 1 0 0 1 with hres
  obtain ⟨hgpos, hda, hdm, hbez⟩ := spec
  have hone : res.1 = 1 := by
    have hdvd : res.1 ∣ (Int.gcd a m : Int) := Int.dvd_gcd hda hdm
    rw [hg] at hdvd
    have := Int.le_of_dvd one_pos hdvd
    omega
  rw [hone] at hbez
  have hmod : modInverse a m = res.2.1 % m := by
    unfold modInverse
    rw [← hres, mod_eq_emod _ hm]
  refine ⟨?_, ?_, ?_⟩
  · rw [hmod]; exact Int.emod_nonneg _ (by omega)
  · rw [hmod]; exact Int.emod_lt_of_pos _ hm
  · have h1 : a * modInverse a m ≡ a * res.2.1 [ZMOD m] := by
      rw [hmod]
      exact Int.ModEq.mul_left a (Int.emod_emod_of_dvd _ dvd_rfl)
    have h2 : a * res.2.1 ≡ 1 [ZMOD m] := by
      have heq : a * res.2.1 = 1 + -res.2.2 * m := by linear_combination hbez
      show (a * res.2.1) % m = 1 % m
      rw [heq, Int.add_mul_emod_self]
    exact h1.trans h2

/-- Any residue in `[0, m)` that inverts `a` equals `modInverse a m`. -/
theorem modInverse_unique {a m : Int} (hm : 0 < m) (hg : Int.gcd a m = 1)
    {s : Int} (h0 : 0 ≤ s) (h1 : s < m) (hs : a * s ≡ 1 [ZMOD m]) :
    s = modInverse a m := by
  obtain ⟨hv0, hv1, hv⟩ := modInverse_spec hm hg
  have hcong : s ≡ modInverse a m [ZMOD m] := by
    have e1 : s * (a * modInverse a m) ≡ s * 1 [ZMOD m] :=
      Int.ModEq.mul_left s hv
    calc s = s * 1 := (mul_one s).symm
      _ ≡ s * (a * modInverse a m) [ZMOD m] := e1.symm
      _ = (a * s) * modInverse a m := by ring
      _ ≡ 1 * modInverse a m [ZMOD m] := Int.ModEq.mul_right _ hs
      _ = modInverse a m := one_mul _
  have : s % m = modInverse a m % m := hcong
  rwa [Int.emod_eq_of_lt h0 h1, Int.emod_eq_of_lt hv0 hv1] at this

/-- The source's `Quaternion` record: four integer components `w + xi + yj + zk`.
Declared in the repository's shared type module; its shape is fixed by the
literals and field accesses of the arithmetic module. -/
structure Quaternion where
  w : Int
  x : Int
  y : Int
  z : Int
deriving DecidableEq

/-- The source's `mulQ` (Hamilton product) in its modulus-present branch: every
component of the integer Hamilton product is reduced with `mod`. -/
def mulQ (q1 q2 : Quaternion) (modulus : Int) : Quaternion :=
  let w := q1.w * q2.w - q1.x * q2.x - q1.y * q2.y - q1.z * q2.z
  let x := q1.w * q2.x + q1.x * q2.w + q1.y * q2.z - q1.z * q2.y
  let y := q1.w * q2.y - q1.x * q2.z + q1.y * q2.w + q1.z * q2.x
  let z := q1.w * q2.z + q1.x * q2.y - q1.y * q2.x + q1.z * q2.w
  ⟨mod w modulus, mod x modulus, mod y modulus, mod z modulus⟩

/-- The source's `conjugateQ` in its modulus-present branch. -/
def conjugateQ (q : Quaternion) (modulus : Int) : Quaternion :=
  ⟨mod q.w modulus, mod (-q.x) modulus, mod (-q.y) modulus, mod (-q.z) modulus⟩

/-- The source's `normSqQ` in its modulus-present branch. -/
def normSqQ (q : Quaternion) (modulus : Int) : Int :=
  mod (q.w * q.w + q.x * q.x + q.y * q.y + q.z * q.z) modulus

/-- The source's `invQ` in its modulus-present branch: `null` (here `none`)
exactly when the reduced squared norm is `0`; otherwise the conjugate scaled by
`modInverse` of the norm.  The source wraps the `modInverse` call in
`try/catch`, but `modInverse` is total arithmetic and can never throw, so the
`catch` branch is dead code and the embedding omits it. -/
def invQ (q : Quaternion) (modulus : Int) : Option Quaternion :=
  let nSq := normSqQ q modulus
  if nSq = 0 then none
  else
    let nSqInv := modInverse nSq modulus
    let conj := conjugateQ q modulus
    some ⟨mod (conj.w * nSqInv) modulus, mod (conj.x * nSqInv) modulus,
      mod (conj.y * nSqInv) modulus, mod (conj.z * nSqInv) modulus⟩

/-- Componentwise congruence of quaternions modulo `m`. -/
def QModEq (m : Int) (q1 q2 : Quaternion) : Prop :=
  q1.w ≡ q2.w [ZMOD m] ∧ q1.x ≡ q2.x [ZMOD m] ∧
  q1.y ≡ q2.y [ZMOD m] ∧ q1.z ≡ q2.z [ZMOD m]

/-- `mulQ` only depends on the residue classes of its arguments. -/
theorem mulQ_congr {m : Int} (hm : 0 < m) {q1 q1' q2 q2' : Quaternion}
    (h1 : QModEq m q1 q1') (h2 : QModEq m q2 q2') :
    mulQ q1 q2 m = mulQ q1' q2' m := by
  obtain ⟨hw1, hx1, hy1, hz1⟩ := h1
  obtain ⟨hw2, hx2, hy2, hz2⟩ := h2
  unfold mulQ
  simp only [Quaternion.mk.injEq]
  refine ⟨?_, ?_, ?_, ?_⟩ <;> apply mod_congr hm
  · exact (((hw1.mul hw2).sub (hx1.mul hx2)).sub (hy1.mul hy2)).sub
      (hz1.mul hz2)
  · exact (((hw1.mul hx2).add (hx1.mul hw2)).add (hy1.mul hz2)).sub
      (hz1.mul hy2)
  · exact (((hw1.mul hy2).sub (hx1.mul hz2)).add (hy1.mul hw2)).add
      (hz1.mul hx2)
  · exact (((hw1.mul hz2).add (hx1.mul hy2)).sub (hy1.mul hx2)).add
      (hz1.mul hw2)

theorem qmodeq_refl (m : Int) (q : Quaternion) : QModEq m q q :=
  ⟨Int.ModEq.refl _, Int.ModEq.refl _, Int.ModEq.refl _, Int.ModEq.refl _⟩

/-- For a prime modulus, any residue strictly between `0` and `m` is coprime
with `m`. -/
theorem gcd_eq_one_of_prime {n m : Int} (hp : Prime m) (h0 : 0 < n)
    (h1 : n < m) : Int.gcd n m = 1 := by
  have hmp : m.natAbs.Prime := Int.prime_iff_natAbs_prime.mp hp
  have hdvd : Int.gcd n m ∣ m.natAbs := by
    rw [Int.gcd_def]; exact Nat.gcd_dvd_right _ _
  rcases Nat.Prime.eq_one_or_self_of_dvd hmp _ hdvd with h | h
  · exact h
  · exfalso
    have hd2 : Int.gcd n m ∣ n.natAbs := by
      rw [Int.gcd_def]; exact Nat.gcd_dvd_left _ _
    rw [h] at hd2
    have hnpos : 0 < n.natAbs := by omega
    have := Nat.le_of_dvd hnpos hd2
    omega

/-- Inverse correctness of `invQ`: whenever the reduced squared norm is
nonzero and coprime with the (nontrivial) modulus, `invQ` is defined and is a
genuine two-sided inverse for `mulQ`. -/
theorem invQ_spec (q : Quaternion) {m : Int} (hm1 : 1 < m)
    (hn : normSqQ q m ≠ 0) (hg : Int.gcd (normSqQ q m) m = 1) :
    ∃ qi, invQ q m = some qi ∧
      mulQ q qi m = ⟨1, 0, 0, 0⟩ ∧ mulQ qi q m = ⟨1, 0, 0, 0⟩ := by
  have hm : 0 < m := by omega
  obtain ⟨hv0, hv1, hvinv⟩ := modInverse_spec hm hg
  set v := modInverse (normSqQ q m) m with hvdef
  have hnv : (q.w * q.w + q.x * q.x + q.y * q.y + q.z * q.z) * v ≡ 1 [ZMOD m] := by
    have h1 : normSqQ q m ≡ q.w * q.w + q.x * q.x + q.y * q.y + q.z * q.z
        [ZMOD m] := mod_modeq _ hm
    exact (Int.ModEq.mul_right v h1).symm.trans hvinv
  refine ⟨⟨mod (mod q.w m * v) m, mod (mod (-q.x) m * v) m,
    mod (mod (-q.y) m * v) m, mod (mod (-q.z) m * v) m⟩, ?_, ?_, ?_⟩
  · simp only [invQ, conjugateQ]
    rw [if_neg hn]
  · have hr : QModEq m
        ⟨mod (mod q.w m * v) m, mod (mod (-q.x) m * v) m,
          mod (mod (-q.y) m * v) m, mod (mod (-q.z) m * v) m⟩
        ⟨q.w * v, -q.x * v, -q.y * v, -q.z * v⟩ := by
      refine ⟨?_, ?_, ?_, ?_⟩ <;>
        exact (mod_modeq _ hm).trans (Int.ModEq.mul_right v (mod_modeq _ hm))
    have hstep : mulQ q ⟨mod (mod q.w m * v) m, mod (mod (-q.x) m * v) m,
        mod (mod (-q.y) m * v) m, mod (mod (-q.z) m * v) m⟩ m =
        mulQ q ⟨q.w * v, -q.x * v, -q.y * v, -q.z * v⟩ m :=
      mulQ_congr hm (qmodeq_refl m q) hr
    rw [hstep]
    have hcomp : mulQ q ⟨q.w * v, -q.x * v, -q.y * v, -q.z * v⟩ m =
        ⟨mod ((q.w * q.w + q.x * q.x + q.y * q.y + q.z * q.z) * v) m,
          mod 0 m, mod 0 m, mod 0 m⟩ := by
      simp only [mulQ, Quaternion.mk.injEq]
      exact ⟨congrArg (fun e => mod e m) (by ring),
        congrArg (fun e => mod e m) (by ring),
        congrArg (fun e => mod e m) (by ring),
        congrArg (fun e => mod e m) (by ring)⟩
    rw [hcomp, mod_congr hm hnv, mod_one_of_one_lt hm1, mod_zero_of_pos hm]
  · have hr : QModEq m
        ⟨mod (mod q.w m * v) m, mod (mod (-q.x) m * v) m,
          mod (mod (-q.y) m * v) m, mod (mod (-q.z) m * v) m⟩
        ⟨q.w * v, -q.x * v, -q.y * v, -q.z * v⟩ := by
      refine ⟨?_, ?_, ?_, ?_⟩ <;>
        exact (mod_modeq _ hm).trans (Int.ModEq.mul_right v (mod_modeq _ hm))
    have hstep : mulQ ⟨mod (mod q.w m * v) m, mod (mod (-q.x) m * v) m,
        mod (mod (-q.y) m * v) m, mod (mod (-q.z) m * v) m⟩ q m =
        mulQ ⟨q.w * v, -q.x * v, -q.y * v, -q.z * v⟩ q m :=
      mulQ_congr hm hr (qmodeq_refl m q)
    rw [hstep]
    have hcomp : mulQ ⟨q.w * v, -q.x * v, -q.y * v, -q.z * v⟩ q m =
        ⟨mod ((q.w * q.w + q.x * q.x + q.y * q.y + q.z * q.z) * v) m,
          mod 0 m, mod 0 m, mod 0 m⟩ := by
      simp only [mulQ, Quaternion.mk.injEq]
      exact ⟨congrArg (fun e => mod e m) (by ring),
        congrArg (fun e => mod e m) (by ring),
        congrArg (fun e => mod e m) (by ring),
        congrArg (fun e => mod e m) (by ring)⟩
    rw [hcomp, mod_congr hm hnv, mod_one_of_one_lt hm1, mod_zero_of_pos hm]

/-- The simulation component's `SimulationState`: modulus, public base,
the two secrets, and the four derived values (`null` embedded as `none`). -/
structure SimState where
  modulus : Int
  baseP : Quaternion
  aliceSecret : Quaternion
  bobSecret : Quaternion
  alicePublic : Option Quaternion
  bobPublic : Option Quaternion
  sharedSecretA : Option Quaternion
  sharedSecretB : Option Quaternion
deriving DecidableEq

/-- The component's `INITIAL_STATE` literal. -/
def INITIAL_STATE : SimState where
  modulus := 13
  baseP := ⟨1, 2, 3, 4⟩
  aliceSecret := ⟨2, 1, 0, 1⟩
  bobSecret := ⟨1, 3, 1, 0⟩
  alicePublic := none
  bobPublic := none
  sharedSecretA := none
  sharedSecretB := none

/-- The component's `generateKeys` handler.  Its three `randomQuaternion`
samples (the base, and the secrets after the invertibility-resampling loops)
are modelled as explicit arguments; the `setState` spread keeps `modulus` and
resets the four derived fields to `null`. -/
def generateKeys (st : SimState) (base aliceSec bobSec : Quaternion) :
    SimState :=
  { st with
    baseP := base
    aliceSecret := aliceSec
    bobSecret := bobSec
    alicePublic := none
    bobPublic := none
    sharedSecretA := none
    sharedSecretB := none }

/-- The distinct failure condition of the exchange handler: the branch that
logs `"Error: Generated non-invertible secrets. Regenerating..."` and returns
early (triggering key regeneration) instead of publishing public values. -/
inductive ExchangeError where
  | nonInvertibleSecret
deriving DecidableEq

/-- The component's `performExchange` handler.  When both secrets invert, it
stores `T = S * G * S⁻¹` for each party into `alicePublic` / `bobPublic`;
otherwise it takes the distinct non-invertible-secret branch and publishes
nothing. -/
def performExchange (st : SimState) : Except ExchangeError SimState :=
  match invQ st.aliceSecret st.modulus, invQ st.bobSecret st.modulus with
  | some aliceInv, some bobInv =>
      let alicePub := mulQ (mulQ st.aliceSecret st.baseP st.modulus) aliceInv
        st.modulus
      let bobPub := mulQ (mulQ st.bobSecret st.baseP st.modulus) bobInv
        st.modulus
      Except.ok { st with alicePublic := some alicePub, bobPublic := some bobPub }
  | _, _ => Except.error ExchangeError.nonInvertibleSecret

/-- The component's `computeSharedSecret` handler: an early `return` (state
unchanged, no error value) when a public value is missing or a secret does not
invert; otherwise it stores `kA = A * T_B * A⁻¹` and `kB = B * T_A * B⁻¹`. -/
def computeSharedSecret (st : SimState) : SimState :=
  match st.alicePublic, st.bobPublic with
  | some alicePub, some bobPub =>
      match invQ st.aliceSecret st.modulus, invQ st.bobSecret st.modulus with
      | some aliceInv, some bobInv =>
          let kA := mulQ (mulQ st.aliceSecret bobPub st.modulus) aliceInv
            st.modulus
          let kB := mulQ (mulQ st.bobSecret alicePub st.modulus) bobInv
            st.modulus
          { st with sharedSecretA := some kA, sharedSecretB := some kB }
      | _, _ => st
  | _, _ => st

/-- Claim C1: for the fixed toy inputs (modulus 13, base (1,2,3,4),
secretA (2,1,0,1), secretB (1,3,1,0)), running the exchange phase and then the
derivation phase yields sharedA = (1,4,3,11) and sharedB = (1,10,2,4), which
differ componentwise. -/
theorem c1_naive_derivation_mismatch :
    (performExchange INITIAL_STATE).map computeSharedSecret =
      Except.ok { INITIAL_STATE with
        alicePublic := some ⟨1, 5, 4, 1⟩
        bobPublic := some ⟨1, 4, 10, 11⟩
        sharedSecretA := some ⟨1, 4, 3, 11⟩
        sharedSecretB := some ⟨1, 10, 2, 4⟩ } ∧
    (⟨1, 4, 3, 11⟩ : Quaternion) ≠ ⟨1, 10, 2, 4⟩ :=
  ⟨by rfl, by decide⟩

/-- Claim C2: for every modulus m > 2, `mulQ i j m = k` while
`mulQ j i m = (0,0,0, reduce(-1,m))`, and the two products differ. -/
theorem c2_hamilton_product_noncommutative (m : Int) (hm : 2 < m) :
    mulQ ⟨0, 1, 0, 0⟩ ⟨0, 0, 1, 0⟩ m = ⟨0, 0, 0, 1⟩ ∧
    mulQ ⟨0, 0, 1, 0⟩ ⟨0, 1, 0, 0⟩ m = ⟨0, 0, 0, mod (-1) m⟩ ∧
    mulQ ⟨0, 1, 0, 0⟩ ⟨0, 0, 1, 0⟩ m ≠ mulQ ⟨0, 0, 1, 0⟩ ⟨0, 1, 0, 0⟩ m := by
  have hm1 : 1 < m := by omega
  have hz0 : mod 0 m = 0 := mod_zero_of_pos (by omega)
  have hz1 : mod 1 m = 1 := mod_one_of_one_lt hm1
  have hij : mulQ ⟨0, 1, 0, 0⟩ ⟨0, 0, 1, 0⟩ m = ⟨0, 0, 0, 1⟩ := by
    simp only [mulQ, Quaternion.mk.injEq]
    norm_num [hz0, hz1]
  have hji : mulQ ⟨0, 0, 1, 0⟩ ⟨0, 1, 0, 0⟩ m = ⟨0, 0, 0, mod (-1) m⟩ := by
    simp only [mulQ, Quaternion.mk.injEq]
    norm_num [hz0]
  refine ⟨hij, hji, ?_⟩
  rw [hij, hji]
  intro hcontra
  have hz : (1 : Int) = mod (-1) m := congrArg Quaternion.z hcontra
  rw [mod_neg_one_of_one_lt hm1] at hz
  omega

/-- Witness for C2 at m = 5. -/
theorem c2_hamilton_product_noncommutative_witness :
    mulQ ⟨0, 1, 0, 0⟩ ⟨0, 0, 1, 0⟩ 5 = ⟨0, 0, 0, 1⟩ ∧
    mulQ ⟨0, 0, 1, 0⟩ ⟨0, 1, 0, 0⟩ 5 = ⟨0, 0, 0, mod (-1) 5⟩ ∧
    mulQ ⟨0, 1, 0, 0⟩ ⟨0, 0, 1, 0⟩ 5 ≠ mulQ ⟨0, 0, 1, 0⟩ ⟨0, 1, 0, 0⟩ 5 :=
  c2_hamilton_product_noncommutative 5 (by decide)

/-- Claim C3: for a positive prime modulus and any quaternion whose reduced
squared norm is nonzero, `invQ` is defined and is a two-sided inverse:
`mulQ q (invQ q m) m = mulQ (invQ q m) q m = (1,0,0,0)`. -/
theorem c3_invQ_inverse_for_prime_modulus (q : Quaternion) (m : Int)
    (hp : Prime m) (hmpos : 0 < m) (hn : normSqQ q m ≠ 0) :
    ∃ qi, invQ q m = some qi ∧
      mulQ q qi m = ⟨1, 0, 0, 0⟩ ∧ mulQ qi q m = ⟨1, 0, 0, 0⟩ := by
  have hne1 : m ≠ 1 := hp.ne_one
  have hm1 : 1 < m := by omega
  have hp0 : 0 ≤ normSqQ q m := mod_nonneg_of_pos _ hmpos
  have hpos : 0 < normSqQ q m := lt_of_le_of_ne hp0 (Ne.symm hn)
  have hlt : normSqQ q m < m := mod_lt_of_pos _ hmpos
  exact invQ_spec q hm1 hn (gcd_eq_one_of_prime hp hpos hlt)

/-- Witness for C3 at q = (2,1,0,1), m = 13. -/
theorem c3_invQ_inverse_for_prime_modulus_witness :
    ∃ qi, invQ ⟨2, 1, 0, 1⟩ 13 = some qi ∧
      mulQ ⟨2, 1, 0, 1⟩ qi 13 = ⟨1, 0, 0, 0⟩ ∧
      mulQ qi ⟨2, 1, 0, 1⟩ 13 = ⟨1, 0, 0, 0⟩ :=
  c3_invQ_inverse_for_prime_modulus ⟨2, 1, 0, 1⟩ 13
    (Int.prime_iff_natAbs_prime.mpr (by decide)) (by decide) (by decide)

/-- Claim C4 (code bug): at q = (1,1,0,0), m = 4 the reduced squared norm is 2,
which is not coprime with the modulus, yet `invQ` does NOT yield an absent
result — it returns (1,3,0,0), which is not an inverse.  The source's own
comment expects `modInverse` to fail in this case, but `modInverse` is total
arithmetic and the `catch` guard can never fire. -/
theorem c4_invQ_noncoprime_norm_not_absent :
    normSqQ ⟨1, 1, 0, 0⟩ 4 = 2 ∧
    Int.gcd (normSqQ ⟨1, 1, 0, 0⟩ 4) 4 ≠ 1 ∧
    invQ ⟨1, 1, 0, 0⟩ 4 = some ⟨1, 3, 0, 0⟩ ∧
    mulQ ⟨1, 1, 0, 0⟩ ⟨1, 3, 0, 0⟩ 4 ≠ ⟨1, 0, 0, 0⟩ := by decide

/-- Claim C5: when both secrets invert, the exchange phase publishes each
party's conjugate of the base, `T = S * G * S⁻¹`, into the `alicePublic` /
`bobPublic` fields, leaving everything else in the state unchanged. -/
theorem c5_performExchange_publishes_conjugates (st : SimState)
    (aInv bInv : Quaternion)
    (ha : invQ st.aliceSecret st.modulus = some aInv)
    (hb : invQ st.bobSecret st.modulus = some bInv) :
    performExchange st = Except.ok { st with
      alicePublic :=
        some (mulQ (mulQ st.aliceSecret st.baseP st.modulus) aInv st.modulus)
      bobPublic :=
        some (mulQ (mulQ st.bobSecret st.baseP st.modulus) bInv st.modulus) } := by
  unfold performExchange
  rw [ha, hb]

/-- Witness for C5 at the initial state. -/
theorem c5_performExchange_publishes_conjugates_witness :
    invQ INITIAL_STATE.aliceSecret INITIAL_STATE.modulus = some ⟨9, 2, 0, 2⟩ ∧
    performExchange INITIAL_STATE = Except.ok { INITIAL_STATE with
      alicePublic := some (mulQ (mulQ INITIAL_STATE.aliceSecret
        INITIAL_STATE.baseP INITIAL_STATE.modulus) ⟨9, 2, 0, 2⟩
        INITIAL_STATE.modulus)
      bobPublic := some (mulQ (mulQ INITIAL_STATE.bobSecret
        INITIAL_STATE.baseP INITIAL_STATE.modulus) ⟨6, 8, 7, 0⟩
        INITIAL_STATE.modulus) } :=
  ⟨by decide, c5_performExchange_publishes_conjugates INITIAL_STATE
    ⟨9, 2, 0, 2⟩ ⟨6, 8, 7, 0⟩ (by decide) (by decide)⟩

/-- Claim C6: if the exchange phase runs while either secret fails to invert,
it takes the distinct non-invertible-secret branch — it publishes no public
values and substitutes no defaults. -/
theorem c6_performExchange_non_invertible_secret (st : SimState)
    (h : invQ st.aliceSecret st.modulus = none ∨
      invQ st.bobSecret st.modulus = none) :
    performExchange st = Except.error ExchangeError.nonInvertibleSecret := by
  rcases h with h | h
  · cases hb : invQ st.bobSecret st.modulus <;>
      simp [performExchange, h, hb]
  · cases ha : invQ st.aliceSecret st.modulus <;>
      simp [performExchange, ha, h]

/-- Witness for C6: zero secret at the initial state's modulus. -/
theorem c6_performExchange_non_invertible_secret_witness :
    performExchange { INITIAL_STATE with aliceSecret := ⟨0, 0, 0, 0⟩ } =
      Except.error ExchangeError.nonInvertibleSecret :=
  c6_performExchange_non_invertible_secret
    { INITIAL_STATE with aliceSecret := ⟨0, 0, 0, 0⟩ } (Or.inl (by decide))

/-- Claim C7: for every integer a and positive m, `mod a m` lies in `[0, m)`
and is congruent to a modulo m — true mathematical modulo. -/
theorem c7_mod_mathematical_modulo (a m : Int) (hm : 0 < m) :
    0 ≤ mod a m ∧ mod a m < m ∧ mod a m ≡ a [ZMOD m] :=
  ⟨mod_nonneg_of_pos a hm, mod_lt_of_pos a hm, mod_modeq a hm⟩

/-- Witness for C7 at a = -7, m = 3. -/
theorem c7_mod_mathematical_modulo_witness :
    0 ≤ mod (-7) 3 ∧ mod (-7) 3 < 3 ∧ mod (-7) 3 ≡ -7 [ZMOD 3] :=
  c7_mod_mathematical_modulo (-7) 3 (by decide)

/-- Claim C8: for positive m coprime with a, `modInverse a m` is the unique
s in `[0, m)` with `a * s ≡ 1 (mod m)`; the possibly-negative Bezout
coefficient is normalized into `[0, m)`. -/
theorem c8_modInverse_normalized_unique_inverse (a m : Int) (hm : 0 < m)
    (hg : Int.gcd a m = 1) :
    (0 ≤ modInverse a m ∧ modInverse a m < m ∧
      a * modInverse a m ≡ 1 [ZMOD m]) ∧
    ∀ s, 0 ≤ s → s < m → a * s ≡ 1 [ZMOD m] → s = modInverse a m :=
  ⟨modInverse_spec hm hg,
    fun _ h0 h1 hs => modInverse_unique hm hg h0 h1 hs⟩

/-- Witness for C8 at a = 3, m = 7 (Bezout coefficient -2, normalized to 5). -/
theorem c8_modInverse_normalized_unique_inverse_witness :
    0 ≤ modInverse 3 7 ∧ modInverse 3 7 < 7 ∧
    (3 : Int) * modInverse 3 7 ≡ 1 [ZMOD 7] :=
  (c8_modInverse_normalized_unique_inverse 3 7 (by decide) (by decide)).1

/-- Claim C9: regenerating parameters leaves all four derived fields absent,
whatever state the session was in and whatever values were sampled. -/
theorem c9_generateKeys_resets_derived_fields (st : SimState)
    (base aliceSec bobSec : Quaternion) :
    (generateKeys st base aliceSec bobSec).alicePublic = none ∧
    (generateKeys st base aliceSec bobSec).bobPublic = none ∧
    (generateKeys st base aliceSec bobSec).sharedSecretA = none ∧
    (generateKeys st base aliceSec bobSec).sharedSecretB = none :=
  ⟨rfl, rfl, rfl, rfl⟩

/-- Claim C10: the derivation phase is a silent no-op — the state is returned
completely unchanged and no error is produced — whenever a public value is
missing or either secret fails to invert. -/
theorem c10_computeSharedSecret_noop_on_missing_prereq (st : SimState)
    (h : st.alicePublic = none ∨ st.bobPublic = none ∨
      invQ st.aliceSecret st.modulus = none ∨
      invQ st.bobSecret st.modulus = none) :
    computeSharedSecret st = st := by
  rcases h with h | h | h | h <;>
  · cases hA : st.alicePublic <;> cases hB : st.bobPublic <;>
      cases hIA : invQ st.aliceSecret st.modulus <;>
      cases hIB : invQ st.bobSecret st.modulus <;>
      simp_all [computeSharedSecret]

/-- Witness for C10 at the initial state (both public values absent). -/
theorem c10_computeSharedSecret_noop_on_missing_prereq_witness :
    computeSharedSecret INITIAL_STATE = INITIAL_STATE :=
  c10_computeSharedSecret_noop_on_missing_prereq INITIAL_STATE
    (Or.inl (by decide))

end QShield
